import Mathlib

set_option maxRecDepth 40000

/-!
Verification of the danmaku parameter codec, statistics aggregation and
similarity/density detection of `misaka_danmu_server`.

The Python sources are shallowly embedded:
* Python `str` values are embedded as `List Char` (labels returned to callers
  are embedded as `String`).
* Python `float` values are embedded as `ℚ`.  Every IEEE-754 double is a
  dyadic rational `m / 2^j` with `j ≤ 1074`, hence a finite decimal fraction
  whose denominator divides `10 ^ 1100`; the predicate `IsFiniteDecimal`
  captures exactly this value range.
* The builtins `int(s)` / `float(s)` are embedded by `pyInt` / `pyFloat`,
  covering the decimal core of their grammar (optional sign, decimal digits,
  and for `float` an optional fractional part).  The exotic corners of the
  Python grammar (surrounding whitespace, `_` digit separators, exponents,
  `inf` / `nan`) are outside the modelled input space; no claim below hinges
  on them.
* Fallible code returns `Option` / `Except`; a Python function that returns
  an empty dict on failure and a fully populated dict on success is embedded
  as an `Option` of a structure (the source builds the dict atomically, so it
  is never partially populated).
-/

/-! ### Decimal / hexadecimal digit primitives -/

/-- The decimal value of a digit character (`'0'` ↦ 0, …, `'9'` ↦ 9). -/
def digitVal (c : Char) : ℕ := c.toNat - 48

/-- The digit character of a value `< 10`. -/
def digitChar10 (d : ℕ) : Char := Char.ofNat (48 + d)

/-- The uppercase hexadecimal digit character of a value `< 16`
(`0`–`9` then `A`–`F`), as produced by Python's `X` format code. -/
def hexDigitChar (d : ℕ) : Char :=
  if d < 10 then Char.ofNat (48 + d) else Char.ofNat (55 + d)

/-- Fuel-driven base-`b` digit expansion (most significant digit first);
`fuel ≥ n` makes the result exact.  Structural recursion on the fuel keeps
the function kernel-reducible. -/
def baseDigitsAux (b : ℕ) : ℕ → ℕ → List ℕ
  | 0, _ => []
  | fuel + 1, n => if n = 0 then [] else baseDigitsAux b fuel (n / b) ++ [n % b]

/-- Decimal rendering of a natural number, as Python's `str` renders it. -/
def renderNat (n : ℕ) : List Char :=
  if n = 0 then ['0'] else (baseDigitsAux 10 (n + 1) n).map digitChar10

/-- Decimal rendering of an integer, as Python's `str` renders it. -/
def renderInt (z : ℤ) : List Char :=
  if z < 0 then '-' :: renderNat z.natAbs else renderNat z.toNat

/-- Uppercase hexadecimal rendering of a natural number, as Python's
`format(n, 'X')` renders it. -/
def toHexUpper (n : ℕ) : List Char :=
  if n = 0 then ['0'] else (baseDigitsAux 16 (n + 1) n).map hexDigitChar

/-- Numeric value of a list of decimal digit characters (empty list ↦ 0). -/
def valDigits (ds : List Char) : ℕ :=
  ds.foldl (fun a c => 10 * a + digitVal c) 0

/-- Parse a nonempty string of decimal digits, the unsigned core of Python's
`int(s)`. -/
def parseNatDigits (ds : List Char) : Option ℕ :=
  if ds ≠ [] ∧ ds.all Char.isDigit then some (valDigits ds) else none

/-- Embedding of Python's `int(s)` on its decimal core: an optional single
sign followed by one or more decimal digits. -/
def pyInt (cs : List Char) : Option ℤ :=
  match cs with
  | [] => none
  | c :: rest =>
    if c = '+' then (parseNatDigits rest).map Int.ofNat
    else if c = '-' then (parseNatDigits rest).map (fun n => -(n : ℤ))
    else (parseNatDigits cs).map Int.ofNat

/-- Unsigned core of Python's `float(s)`: decimal digits with an optional
`'.'` and fractional digits; at least one digit overall. -/
def pyFloatCore (cs : List Char) : Option ℚ :=
  let ip := cs.takeWhile Char.isDigit
  match cs.dropWhile Char.isDigit with
  | [] => if ip = [] then none else some (valDigits ip)
  | c :: fp =>
    if c = '.' then
      if ip = [] ∧ fp = [] then none
      else if fp.all Char.isDigit then
        some ((valDigits ip : ℚ) + (valDigits fp : ℚ) / 10 ^ fp.length)
      else none
    else none

/-- Embedding of Python's `float(s)` on its finite decimal core. -/
def pyFloat (cs : List Char) : Option ℚ :=
  match cs with
  | [] => none
  | c :: rest =>
    if c = '+' then pyFloatCore rest
    else if c = '-' then (pyFloatCore rest).map (fun q => -q)
    else pyFloatCore cs

/-- A rational is a finite decimal fraction of at most 1100 fractional
digits.  Every IEEE-754 double value satisfies this (`m / 2^j`, `j ≤ 1074`,
and `2 ^ j ∣ 10 ^ j`), so this is the value range of the spec's `float64`
`time` field. -/
def IsFiniteDecimal (q : ℚ) : Prop := ∃ k ≤ 1100, q.den ∣ 10 ^ k

/-- Least number of fractional decimal digits needed to render `q`
(searched up to the `float64` bound; 0 whenever `q` is not a finite
decimal). -/
def findDecExp (q : ℚ) : ℕ :=
  (((List.range 1101).find? (fun k => decide (q.den ∣ 10 ^ k)))).getD 0

/-- Left-pad a digit string with `'0'` to length `k`. -/
def padZeros (k : ℕ) (ds : List Char) : List Char :=
  List.replicate (k - ds.length) '0' ++ ds

/-- Canonical decimal rendering of a finite decimal rational: sign, integer
part, and (when the fractional part is nonempty) a `'.'` followed by exactly
`findDecExp q` digits.  This is the rendering used by the spec-modelled
`encode`. -/
def renderDec (q : ℚ) : List Char :=
  let k := findDecExp q
  let m : ℕ := q.num.natAbs * (10 ^ k / q.den)
  let sign : List Char := if q.num < 0 then ['-'] else []
  if k = 0 then sign ++ renderNat m
  else sign ++ renderNat (m / 10 ^ k) ++ '.' :: padZeros k (renderNat (m % 10 ^ k))

/-! ### The decoded parameter record and `parse_params_string`

Embeds `DanmakuParamsParser.parse_params_string`
(`src/database/repositories/danmaku_parser.py`).  The Python function
returns a fully populated dict on success and `{}` on any failure
(`ValueError` from `float`/`int`, or fewer than 8 comma-separated fields);
this is embedded as an `Option` of a record. -/

/-- The decoded parameter record: the keys of the dict built by
`parse_params_string` (= the spec's `DecodedParams`). -/
structure DanmakuParams where
  time : ℚ
  mode : ℤ
  font_size : ℤ
  color : ℤ
  timestamp : ℤ
  pool : ℤ
  danmaku_id : List Char
  user_hash : List Char
  deriving DecidableEq, Repr

/-- Core of `parse_params_string` acting on the already-split field list.
The `Option.bind` chain mirrors Python's left-to-right evaluation of the
dict literal under the `try`: the first failing conversion aborts the whole
record.  The dead-in-source conditional default for `user_hash`
(`parts[7] if len(parts) > 7 else ''`) is kept verbatim. -/
def parseParts (parts : List (List Char)) : Option DanmakuParams :=
  if 8 ≤ parts.length then
    (pyFloat (parts.getD 0 [])).bind fun t =>
    (pyInt (parts.getD 1 [])).bind fun m =>
    (pyInt (parts.getD 2 [])).bind fun fs =>
    (pyInt (parts.getD 3 [])).bind fun c =>
    (pyInt (parts.getD 4 [])).bind fun ts =>
    (pyInt (parts.getD 5 [])).bind fun pl =>
    some { time := t, mode := m, font_size := fs, color := c, timestamp := ts,
           pool := pl, danmaku_id := parts.getD 6 [],
           user_hash := if 7 < parts.length then parts.getD 7 [] else [] }
  else none

/-- `DanmakuParamsParser.parse_params_string`: split on `','` and convert
the first 8 fields. -/
def parse_params_string (s : List Char) : Option DanmakuParams :=
  parseParts (s.splitOn ',')

/-- Modelled from the spec: `encode(DecodedParams) -> string` has no
implementation under `src/` (only `decode` exists); §4.1 of the spec defines
the output format as the 8 comma-separated fields
`time,mode,font_size,color,send_timestamp,pool,external_id,user_hash`. -/
def encode (p : DanmakuParams) : List Char :=
  [','].intercalate
    [renderDec p.time, renderInt p.mode, renderInt p.font_size,
     renderInt p.color, renderInt p.timestamp, renderInt p.pool,
     p.danmaku_id, p.user_hash]

/-- Spec §3 validity invariant on decoded records: `color` is a 24-bit
value. -/
def ValidParams (p : DanmakuParams) : Prop := 0 ≤ p.color ∧ p.color ≤ 0xFFFFFF

/-! ### Attribute catalog -/

/-- `DanmakuParamsParser.get_mode_name`. -/
def get_mode_name (m : ℤ) : String :=
  if m = 1 then "从右至左滚动"
  else if m = 4 then "底端固定"
  else if m = 5 then "顶端固定"
  else if m = 6 then "逆向滚动"
  else if m = 7 then "精确定位"
  else if m = 8 then "高级弹幕"
  else "未知模式(" ++ toString m ++ ")"

/-- `DanmakuParamsParser.get_color_hex`, i.e. Python's `f"#{color:06X}"`:
`'#'` followed by the uppercase hexadecimal rendering zero-padded to a
minimum field width of 6 (a negative value spends one width unit on the
sign; a value needing more than 6 digits is printed in full, never
truncated). -/
def get_color_hex (color : ℤ) : String :=
  if color < 0 then String.mk ('#' :: '-' :: padZeros 5 (toHexUpper color.natAbs))
  else String.mk ('#' :: padZeros 6 (toHexUpper color.toNat))

/-- `DanmakuParamsParser.get_font_size_name`. -/
def get_font_size_name (s : ℤ) : String :=
  if s = 12 then "小"
  else if s = 18 then "标准"
  else if s = 25 then "大"
  else "自定义(" ++ toString s ++ ")"

/-! ### Statistics aggregation (`EnhancedCommentStatistics`)

The database session is external to the core: the three `*_via_view`
queries run against a database view, so the outcome of the whole
engine-native attempt is an input of the embedding (`Except`: either the
three grouped distributions, or the error the first failing query raised).
The in-process fallback path (`*_via_python` and the inline font-size
tally) is pure and embedded from the source: the episode's raw `p` strings
arrive as a list in storage order. -/

/-- Increment the count of `k` in an insertion-ordered association list, as
`d[k] = d.get(k, 0) + 1` acts on a Python dict. -/
def bump (k : String) : List (String × ℕ) → List (String × ℕ)
  | [] => [(k, 1)]
  | (k', c) :: rest => if k' = k then (k', c + 1) :: rest else (k', c) :: bump k rest

/-- Stable insertion keeping counts in descending order: an element goes in
front of the first entry whose count is `≤` its own, so entries with equal
counts keep their original relative order — exactly Python's stable
`sorted(..., key=lambda x: x[1], reverse=True)`. -/
def insertCountDesc (x : String × ℕ) : List (String × ℕ) → List (String × ℕ)
  | [] => [x]
  | y :: ys => if y.2 ≤ x.2 then x :: y :: ys else y :: insertCountDesc x ys

/-- Stable sort by count descending (Python's `sorted` with
`reverse=True`). -/
def sortCountDesc (l : List (String × ℕ)) : List (String × ℕ) :=
  l.foldr insertCountDesc []

/-- `EnhancedCommentStatistics.get_color_distribution_via_python`: decode up
to `limit` rows, tally `get_color_hex` labels of rows that decode, sort by
count descending.  Rows that fail to decode have no `'color'` key and are
skipped. -/
def get_color_distribution_via_python (rows : List (List Char)) (limit : ℕ) :
    List (String × ℕ) :=
  sortCountDesc ((rows.take limit).foldl
    (fun acc ps =>
      match parse_params_string ps with
      | some r => bump (get_color_hex r.color) acc
      | none => acc) [])

/-- `EnhancedCommentStatistics.get_mode_distribution_via_python`. -/
def get_mode_distribution_via_python (rows : List (List Char)) (limit : ℕ) :
    List (String × ℕ) :=
  sortCountDesc ((rows.take limit).foldl
    (fun acc ps =>
      match parse_params_string ps with
      | some r => bump (get_mode_name r.mode) acc
      | none => acc) [])

/-- The inline font-size tally of `get_comprehensive_statistics`'s fallback
branch. -/
def get_size_distribution_via_python (rows : List (List Char)) (limit : ℕ) :
    List (String × ℕ) :=
  sortCountDesc ((rows.take limit).foldl
    (fun acc ps =>
      match parse_params_string ps with
      | some r => bump (get_font_size_name r.font_size) acc
      | none => acc) [])

/-- The three grouped distributions the engine-native (database-view) path
would return. -/
structure ViewStats where
  colorDistribution : List (String × ℕ)
  modeDistribution : List (String × ℕ)
  fontSizeDistribution : List (String × ℕ)
  deriving DecidableEq, Repr

/-- The result dict of `get_comprehensive_statistics`; `sampleLimit` is
`none` when the key is absent (view path). -/
structure ComprehensiveStats where
  method : String
  sampleLimit : Option ℕ
  colorDistribution : List (String × ℕ)
  modeDistribution : List (String × ℕ)
  fontSizeDistribution : List (String × ℕ)
  deriving DecidableEq, Repr

/-- The fallback branch of `get_comprehensive_statistics`: pure Python
parsing over at most `pythonLimit` rows, tagged `"python_parsing"` with the
sample limit used. -/
def python_fallback_statistics (rows : List (List Char)) (pythonLimit : ℕ) :
    ComprehensiveStats :=
  { method := "python_parsing"
    sampleLimit := some pythonLimit
    colorDistribution := get_color_distribution_via_python rows pythonLimit
    modeDistribution := get_mode_distribution_via_python rows pythonLimit
    fontSizeDistribution := get_size_distribution_via_python rows pythonLimit }

/-- `EnhancedCommentStatistics.get_comprehensive_statistics`: when
`use_view` is set, try the view path (`native` is the outcome of its
queries); any raised error is caught and the function falls through to the
Python fallback, never re-raising. -/
def get_comprehensive_statistics (useView : Bool)
    (native : Except String ViewStats) (rows : List (List Char))
    (pythonLimit : ℕ) : ComprehensiveStats :=
  if useView then
    match native with
    | .ok v =>
      { method := "database_view"
        sampleLimit := none
        colorDistribution := v.colorDistribution
        modeDistribution := v.modeDistribution
        fontSizeDistribution := v.fontSizeDistribution }
    | .error _ => python_fallback_statistics rows pythonLimit
  else python_fallback_statistics rows pythonLimit

/-! ### Danmaku similarity and duplicate cleanup (`DanmakuService`)

Embeds `_string_similarity`, `_calculate_danmaku_similarity` and the
grouping loop of `cleanup_duplicate_danmaku` (`src/services/episode.py`).
A comment row enters with its content `m` and decimal time `t` (the source
applies `float(...)` to the stored decimal; both live in `ℚ` here) plus its
primary-key `id`. -/

/-- The fields of a `Comment` row used by the duplicate cleanup. -/
structure Danmaku where
  id : ℕ
  m : List Char
  t : ℚ
  deriving DecidableEq, Repr

/-- `DanmakuService._string_similarity`: 1.0 for equal strings, 0.0 when
either is empty, otherwise `|set(s1) ∩ set(s2)| / |set(s1) ∪ set(s2)|`
(with the source's vacuous guard against an empty union kept verbatim). -/
def string_similarity (s1 s2 : List Char) : ℚ :=
  if s1 = s2 then 1
  else if s1 = [] ∨ s2 = [] then 0
  else
    let commonChars := s1.toFinset ∩ s2.toFinset
    let allChars := s1.toFinset ∪ s2.toFinset
    if allChars ≠ ∅ then (commonChars.card : ℚ) / (allChars.card : ℚ) else 0

/-- `DanmakuService._calculate_danmaku_similarity`:
`content_similarity * 0.8 + time_similarity * 0.2` with
`time_similarity = max(0, 1 - |t1 - t2| / 5.0)`. -/
def calculate_danmaku_similarity (d1 d2 : Danmaku) : ℚ :=
  let contentSimilarity := string_similarity d1.m d2.m
  let timeDiff := |d1.t - d2.t|
  let timeSimilarity := max 0 (1 - timeDiff / 5)
  contentSimilarity * 0.8 + timeSimilarity * 0.2

/-- The inner `for j, danmaku2 in enumerate(all_danmaku[i+1:], i+1)` loop:
collect the not-yet-processed later comments similar to the anchor, adding
each accepted index to `processed` as it goes; returns the collected
members and the final `processed`. -/
def innerScan (d1 : Danmaku) (θ : ℚ) :
    List (ℕ × Danmaku) → List ℕ → List (ℕ × Danmaku) × List ℕ
  | [], processed => ([], processed)
  | (j, d2) :: rest, processed =>
    if j ∈ processed then innerScan d1 θ rest processed
    else if θ ≤ calculate_danmaku_similarity d1 d2 then
      let res := innerScan d1 θ rest (j :: processed)
      ((j, d2) :: res.1, res.2)
    else innerScan d1 θ rest processed

/-- The outer `for i, danmaku1 in enumerate(all_danmaku)` loop over the
enumerated comment list: skip processed indices, group the anchor with the
members found by `innerScan`, keep the group only when it has more than one
element, mark the anchor processed, continue. -/
def outerScan (θ : ℚ) :
    List (ℕ × Danmaku) → List ℕ → List (List (ℕ × Danmaku))
  | [], _ => []
  | (i, d1) :: rest, processed =>
    if i ∈ processed then outerScan θ rest processed
    else
      (if 1 < ((i, d1) :: (innerScan d1 θ rest processed).1).length
       then [(i, d1) :: (innerScan d1 θ rest processed).1] else []) ++
        outerScan θ rest (i :: (innerScan d1 θ rest processed).2)

/-- The duplicate-group construction inside
`DanmakuService.cleanup_duplicate_danmaku` (the `duplicates` list it then
deletes from, with indices dropped). -/
def cleanup_duplicate_groups (l : List Danmaku) (θ : ℚ) : List (List Danmaku) :=
  (outerScan θ l.enum []).map (fun g => g.map (fun x => x.2))

/-- Written from the claim: the members of an anchor's group are exactly
the later comments, not yet processed, whose similarity **to the anchor**
is at least the threshold. -/
def specGroupMembers (anchor : Danmaku) (θ : ℚ) (rest : List (ℕ × Danmaku))
    (processed : List ℕ) : List (ℕ × Danmaku) :=
  rest.filter (fun jd =>
    decide (jd.1 ∉ processed ∧ θ ≤ calculate_danmaku_similarity anchor jd.2))

/-- Written from the claim: greedy single-linkage grouping in input order —
each unprocessed comment anchors a group of itself and every later
unprocessed comment similar enough to it; all grouped members become
processed; singleton groups are not returned. -/
def specOuter (θ : ℚ) :
    List (ℕ × Danmaku) → List ℕ → List (List (ℕ × Danmaku))
  | [], _ => []
  | (i, d1) :: rest, processed =>
    if i ∈ processed then specOuter θ rest processed
    else
      (if 1 < ((i, d1) :: specGroupMembers d1 θ rest processed).length
       then [(i, d1) :: specGroupMembers d1 θ rest processed] else []) ++
        specOuter θ rest
          (i :: (specGroupMembers d1 θ rest processed).map Prod.fst ++ processed)

/-- Written from the claim: the duplicate groups of a comment list. -/
def specFindDuplicates (l : List Danmaku) (θ : ℚ) : List (List Danmaku) :=
  (specOuter θ l.enum []).map (fun g => g.map (fun x => x.2))

/-! ### Popular danmaku (`CommentRepository.get_popular_danmaku`)

Embeds the raw SQL of `get_popular_danmaku`
(`src/database/repositories/episode.py`).  The first query ranks the
episode's comments by `nearby_count` descending then `t` ascending and
takes `limit` of them; the second query (`Comment.id.in_(comment_ids)`)
carries **no** `ORDER BY`, so its rows come back in storage order — the
embedding returns them in table order. -/

/-- The fields of a `Comment` row used by `get_popular_danmaku`. -/
structure CommentRow where
  id : ℕ
  episodeId : ℕ
  t : ℚ
  deriving DecidableEq, Repr

/-- `COUNT(c2.id)` of the `LEFT JOIN`: the number of other comments of the
same episode whose time lies in `[c1.t - 5, c1.t + 5]`. -/
def nearby_count (table : List CommentRow) (c1 : CommentRow) : ℕ :=
  (table.filter (fun c2 =>
    decide (c2.episodeId = c1.episodeId ∧ c1.t - 5 ≤ c2.t ∧ c2.t ≤ c1.t + 5 ∧
      c2.id ≠ c1.id))).length

/-- `ORDER BY nearby_count DESC, c1.t ASC`: does `a` sort no later than
`b`? -/
def rankBefore (table : List CommentRow) (a b : CommentRow) : Bool :=
  decide (nearby_count table b < nearby_count table a ∨
    (nearby_count table a = nearby_count table b ∧ a.t ≤ b.t))

/-- Insertion step of the ranking sort. -/
def insertRanked (table : List CommentRow) (x : CommentRow) :
    List CommentRow → List CommentRow
  | [] => [x]
  | y :: ys => if rankBefore table x y then x :: y :: ys else y :: insertRanked table x ys

/-- The ranking sort (a deterministic realisation of the SQL `ORDER BY`;
the order among rows with equal `(nearby_count, t)` keys is unspecified in
SQL). -/
def sortRanked (table : List CommentRow) (l : List CommentRow) : List CommentRow :=
  l.foldr (insertRanked table) []

/-- The ranking query: the episode's comments ordered by density score
descending, ties by time ascending. -/
def popular_ranking (table : List CommentRow) (episodeId : ℕ) : List CommentRow :=
  sortRanked table (table.filter (fun c => c.episodeId = episodeId))

/-- `CommentRepository.get_popular_danmaku`: take the ids of the top
`limit` ranked comments, then re-select those ids without an `ORDER BY`
(storage order = table order); an empty id list returns `[]`. -/
def get_popular_danmaku (table : List CommentRow) (episodeId : ℕ) (limit : ℕ) :
    List CommentRow :=
  let ids := ((popular_ranking table episodeId).take limit).map (fun c => c.id)
  if ids = [] then [] else table.filter (fun c => ids.contains c.id)

/-! ## Lemmas on digits, rendering and numeric parsing -/

theorem digitVal_digitChar10 (d : ℕ) (h : d < 10) : digitVal (digitChar10 d) = d := by
  interval_cases d <;> decide

theorem isDigit_digitChar10 (d : ℕ) (h : d < 10) : (digitChar10 d).isDigit = true := by
  interval_cases d <;> decide

theorem mem_baseDigitsAux_lt {b : ℕ} (hb : 0 < b) :
    ∀ (fuel n : ℕ), ∀ d ∈ baseDigitsAux b fuel n, d < b := by
  intro fuel
  induction fuel with
  | zero => intro n d hd; simp [baseDigitsAux] at hd
  | succ fuel ih =>
    intro n d hd
    rw [baseDigitsAux] at hd
    by_cases hn : n = 0
    · simp [hn] at hd
    · rw [if_neg hn] at hd
      rcases List.mem_append.1 hd with h1 | h1
      · exact ih _ _ h1
      · simp at h1; subst h1; exact Nat.mod_lt _ hb

theorem baseDigitsAux_length {b : ℕ} (hb : 2 ≤ b) :
    ∀ (fuel n k : ℕ), n ≤ fuel → n < b ^ k → (baseDigitsAux b fuel n).length ≤ k := by
  intro fuel
  induction fuel with
  | zero => intro n k _ _; simp [baseDigitsAux]
  | succ fuel ih =>
    intro n k hn hk
    rw [baseDigitsAux]
    by_cases h0 : n = 0
    · simp [h0]
    · rw [if_neg h0]
      rcases k with _ | k'
    -- k = 0 would force n = 0
      · simp at hk; omega
      · have hdiv : n / b < b ^ k' := by
          rw [Nat.div_lt_iff_lt_mul (by omega)]
          calc n < b ^ (k' + 1) := hk
            _ = b ^ k' * b := by ring
        have hfuel : n / b ≤ fuel := by
          have := Nat.div_lt_self (Nat.pos_of_ne_zero h0) (by omega : 1 < b)
          omega
        have := ih (n / b) k' hfuel hdiv
        simp only [List.length_append, List.length_cons, List.length_nil]
        omega

theorem baseDigitsAux_foldl {b : ℕ} (hb : 2 ≤ b) :
    ∀ (fuel n a : ℕ), n ≤ fuel →
      (baseDigitsAux b fuel n).foldl (fun acc d => b * acc + d) a =
        a * b ^ (baseDigitsAux b fuel n).length + n := by
  intro fuel
  induction fuel with
  | zero => intro n a hn; interval_cases n; simp [baseDigitsAux]
  | succ fuel ih =>
    intro n a hn
    rw [baseDigitsAux]
    by_cases h0 : n = 0
    · simp [h0]
    · rw [if_neg h0]
      have hfuel : n / b ≤ fuel := by
        have := Nat.div_lt_self (Nat.pos_of_ne_zero h0) (by omega : 1 < b)
        omega
      rw [List.foldl_append]
      simp only [List.foldl_cons, List.foldl_nil, ih (n / b) a hfuel,
        List.length_append, List.length_cons, List.length_nil]
      have := Nat.div_add_mod n b
      ring_nf
      omega

theorem renderNat_ne_nil (n : ℕ) : renderNat n ≠ [] := by
  rw [renderNat]
  by_cases h0 : n = 0
  · simp [h0]
  · rw [if_neg h0, baseDigitsAux, if_neg h0]
    simp

theorem mem_renderNat_isDigit (n : ℕ) : ∀ c ∈ renderNat n, c.isDigit = true := by
  rw [renderNat]
  by_cases h0 : n = 0
  · simp [h0]
  · rw [if_neg h0]
    intro c hc
    rcases List.mem_map.1 hc with ⟨d, hd, rfl⟩
    exact isDigit_digitChar10 d (mem_baseDigitsAux_lt (by omega) _ _ _ hd)

theorem valDigits_renderNat (n : ℕ) : valDigits (renderNat n) = n := by
  rw [renderNat]
  by_cases h0 : n = 0
  · simp [h0]; decide
  · rw [if_neg h0, valDigits, List.foldl_map]
    have hcong : ∀ (l : List ℕ), (∀ d ∈ l, d < 10) → ∀ (a : ℕ),
        l.foldl (fun acc d => 10 * acc + digitVal (digitChar10 d)) a =
          l.foldl (fun acc d => 10 * acc + d) a := by
      intro l
      induction l with
      | nil => intro _ _; rfl
      | cons x xs ihl =>
        intro hl a
        simp only [List.foldl_cons]
        rw [digitVal_digitChar10 x (hl x (List.mem_cons_self x xs)),
          ihl (fun d hd => hl d (List.mem_cons_of_mem x hd))]
    rw [hcong _ (mem_baseDigitsAux_lt (by omega) _ _) 0,
      baseDigitsAux_foldl (by omega) _ _ 0 (Nat.le_succ n)]
    simp

theorem renderNat_length_le {n k : ℕ} (hk : 1 ≤ k) (h : n < 10 ^ k) :
    (renderNat n).length ≤ k := by
  rw [renderNat]
  by_cases h0 : n = 0
  · simp [h0]; omega
  · rw [if_neg h0, List.length_map]
    exact baseDigitsAux_length (by omega) _ _ _ (Nat.le_succ n) h

theorem parseNatDigits_renderNat (n : ℕ) : parseNatDigits (renderNat n) = some n := by
  rw [parseNatDigits, if_pos, valDigits_renderNat]
  exact ⟨renderNat_ne_nil n, List.all_eq_true.2 fun c hc => mem_renderNat_isDigit n c hc⟩

theorem renderNat_head_digit (n : ℕ) :
    ∃ c cs, renderNat n = c :: cs ∧ c.isDigit = true ∧ c ≠ '+' ∧ c ≠ '-' := by
  rcases hr : renderNat n with _ | ⟨c, cs⟩
  · exact absurd hr (renderNat_ne_nil n)
  · refine ⟨c, cs, rfl, ?_, ?_, ?_⟩
    · exact mem_renderNat_isDigit n c (by rw [hr]; exact List.mem_cons_self c cs)
    · intro h
      have := mem_renderNat_isDigit n c (by rw [hr]; exact List.mem_cons_self c cs)
      rw [h] at this
      exact absurd this (by decide)
    · intro h
      have := mem_renderNat_isDigit n c (by rw [hr]; exact List.mem_cons_self c cs)
      rw [h] at this
      exact absurd this (by decide)

theorem pyInt_renderInt (z : ℤ) : pyInt (renderInt z) = some z := by
  rw [renderInt]
  by_cases hz : z < 0
  · rw [if_pos hz]
    simp only [pyInt, parseNatDigits_renderNat]
    norm_num
    rw [if_neg (by decide : ¬('-' : Char) = '+'), abs_of_neg hz, neg_neg]
  · rw [if_neg hz]
    rcases renderNat_head_digit z.toNat with ⟨c, cs, hr, _, hcp, hcm⟩
    rw [hr, pyInt, if_neg hcp, if_neg hcm, ← hr, parseNatDigits_renderNat]
    simp only [Option.map_some']
    rw [Int.ofNat_eq_natCast, Int.toNat_of_nonneg (not_lt.1 hz)]

theorem takeWhile_append_cons {p : Char → Bool} {xs : List Char} {y : Char}
    (hxs : ∀ x ∈ xs, p x = true) (hy : p y = false) (ys : List Char) :
    (xs ++ y :: ys).takeWhile p = xs := by
  induction xs with
  | nil => simp [List.takeWhile, hy]
  | cons x xs ih =>
    rw [List.cons_append, List.takeWhile_cons_of_pos (hxs x (List.mem_cons_self x xs)),
      ih fun a ha => hxs a (List.mem_cons_of_mem x ha)]

theorem dropWhile_append_cons {p : Char → Bool} {xs : List Char} {y : Char}
    (hxs : ∀ x ∈ xs, p x = true) (hy : p y = false) (ys : List Char) :
    (xs ++ y :: ys).dropWhile p = y :: ys := by
  induction xs with
  | nil => simp [List.dropWhile, hy]
  | cons x xs ih =>
    rw [List.cons_append, List.dropWhile_cons_of_pos (hxs x (List.mem_cons_self x xs)),
      ih fun a ha => hxs a (List.mem_cons_of_mem x ha)]

theorem valDigits_padZeros (k : ℕ) (ds : List Char) :
    valDigits (padZeros k ds) = valDigits ds := by
  rw [padZeros, valDigits, valDigits, List.foldl_append]
  congr 1
  generalize k - ds.length = j
  induction j with
  | zero => rfl
  | succ j ih => simpa [List.replicate_succ] using ih

theorem padZeros_length {k : ℕ} {ds : List Char} (h : ds.length ≤ k) :
    (padZeros k ds).length = k := by
  rw [padZeros]
  simp only [List.length_append, List.length_replicate]
  omega

theorem padZeros_all_isDigit {k : ℕ} {ds : List Char}
    (h : ∀ c ∈ ds, c.isDigit = true) : ∀ c ∈ padZeros k ds, c.isDigit = true := by
  intro c hc
  rcases List.mem_append.1 hc with h1 | h1
  · rw [List.eq_of_mem_replicate h1]; decide
  · exact h c h1

theorem pyFloatCore_renderNat (n : ℕ) : pyFloatCore (renderNat n) = some (n : ℚ) := by
  have htake : (renderNat n).takeWhile Char.isDigit = renderNat n :=
    List.takeWhile_eq_self_iff.2 (mem_renderNat_isDigit n)
  have hdrop : (renderNat n).dropWhile Char.isDigit = [] :=
    List.dropWhile_eq_nil_iff.2 (fun c hc => mem_renderNat_isDigit n c hc)
  rw [pyFloatCore]
  simp only [htake, hdrop, if_neg (renderNat_ne_nil n), valDigits_renderNat]

theorem pyFloatCore_renderNat_frac (a : ℕ) {ds : List Char}
    (hds : ∀ c ∈ ds, c.isDigit = true) :
    pyFloatCore (renderNat a ++ '.' :: ds) =
      some ((a : ℚ) + (valDigits ds : ℚ) / 10 ^ ds.length) := by
  have hdot : ('.' : Char).isDigit = false := by decide
  rw [pyFloatCore]
  simp only [takeWhile_append_cons (mem_renderNat_isDigit a) hdot,
    dropWhile_append_cons (mem_renderNat_isDigit a) hdot, if_true]
  rw [if_neg (by simp [renderNat_ne_nil a]),
    if_pos (List.all_eq_true.2 hds), valDigits_renderNat]

theorem char_ne_sign_of_isDigit {c : Char} (hc : c.isDigit = true) : c ≠ '+' ∧ c ≠ '-' := by
  constructor <;> rintro rfl <;> exact absurd hc (by decide)

theorem pyFloat_cons (c : Char) (rest : List Char) :
    pyFloat (c :: rest) =
      if c = '+' then pyFloatCore rest
      else if c = '-' then (pyFloatCore rest).map (fun q => -q)
      else pyFloatCore (c :: rest) := rfl

theorem pyFloat_append_renderNat (n : ℕ) (rest : List Char) :
    pyFloat (renderNat n ++ rest) = pyFloatCore (renderNat n ++ rest) := by
  rcases hr : renderNat n with _ | ⟨c, cs⟩
  · exact absurd hr (renderNat_ne_nil n)
  · have hc : c.isDigit = true :=
      mem_renderNat_isDigit n c (by rw [hr]; exact List.mem_cons_self c cs)
    obtain ⟨h1, h2⟩ := char_ne_sign_of_isDigit hc
    rw [List.cons_append, pyFloat_cons, if_neg h1, if_neg h2]

theorem findDecExp_spec (q : ℚ) (h : IsFiniteDecimal q) : q.den ∣ 10 ^ findDecExp q := by
  obtain ⟨k, hk, hdvd⟩ := h
  have hsome : ((List.range 1101).find? (fun j => decide (q.den ∣ 10 ^ j))).isSome := by
    rw [List.find?_isSome]
    exact ⟨k, List.mem_range.2 (by omega), by simpa using hdvd⟩
  obtain ⟨k', hk'⟩ := Option.isSome_iff_exists.1 hsome
  have := List.find?_some hk'
  rw [findDecExp, hk']
  simpa using this

theorem pyFloat_renderDec {q : ℚ} (h : IsFiniteDecimal q) :
    pyFloat (renderDec q) = some q := by
  have hdvd : q.den ∣ 10 ^ findDecExp q := findDecExp_spec q h
  have hed : 10 ^ findDecExp q / q.den * q.den = 10 ^ findDecExp q :=
    Nat.div_mul_cancel hdvd
  have hden0 : (q.den : ℚ) ≠ 0 := by
    exact_mod_cast q.den_nz
  -- the scaled numerator recovers |q|
  have hmq : ((q.num.natAbs * (10 ^ findDecExp q / q.den) : ℕ) : ℚ) =
      |q| * 10 ^ findDecExp q := by
    push_cast
    rw [Int.cast_natAbs]
    rw [show |q| = |(q.num : ℚ)| / (q.den : ℚ) by
      rw [← abs_of_pos (show (0:ℚ) < (q.den : ℚ) by positivity), ← abs_div,
        Rat.num_div_den]]
    have h2 : ((10 : ℚ) ^ findDecExp q) = ((10 ^ findDecExp q / q.den : ℕ) : ℚ) * q.den := by
      exact_mod_cast hed.symm
    rw [h2]
    field_simp
  -- the unsigned body parses to |q|
  have hbody : ∃ body : List Char,
      (renderDec q = (if q.num < 0 then ['-'] else []) ++ body) ∧
      pyFloat body = some |q| ∧ (pyFloatCore body).map (fun r => -r) = some (-|q|) := by
    rw [renderDec]
    by_cases hk0 : findDecExp q = 0
    · refine ⟨renderNat (q.num.natAbs * (10 ^ findDecExp q / q.den)), by rw [if_pos hk0], ?_⟩
      have hden1 : q.den = 1 := Nat.dvd_one.1 (by rw [← pow_zero 10, ← hk0]; exact hdvd)
      have habs : ((q.num.natAbs * (10 ^ findDecExp q / q.den) : ℕ) : ℚ) = |q| := by
        rw [hmq, hk0, pow_zero, mul_one]
      have hcore := pyFloatCore_renderNat (q.num.natAbs * (10 ^ findDecExp q / q.den))
      rw [habs] at hcore
      constructor
      · rw [← List.append_nil (renderNat _), pyFloat_append_renderNat,
          List.append_nil, hcore]
      · rw [hcore, Option.map_some']
    · set k := findDecExp q with hkdef
      set m : ℕ := q.num.natAbs * (10 ^ k / q.den) with hmdef
      refine ⟨renderNat (m / 10 ^ k) ++ '.' :: padZeros k (renderNat (m % 10 ^ k)),
        by rw [if_neg hk0, List.append_assoc], ?_⟩
      have hk1 : 1 ≤ k := Nat.one_le_iff_ne_zero.2 hk0
      have hmod : m % 10 ^ k < 10 ^ k := Nat.mod_lt _ (by positivity)
      have hlen : (padZeros k (renderNat (m % 10 ^ k))).length = k :=
        padZeros_length (renderNat_length_le hk1 hmod)
      have hval : valDigits (padZeros k (renderNat (m % 10 ^ k))) = m % 10 ^ k := by
        rw [valDigits_padZeros, valDigits_renderNat]
      have hdig : ∀ c ∈ padZeros k (renderNat (m % 10 ^ k)), c.isDigit = true :=
        padZeros_all_isDigit (mem_renderNat_isDigit _)
      have hcore : pyFloatCore (renderNat (m / 10 ^ k) ++ '.' ::
          padZeros k (renderNat (m % 10 ^ k))) = some |q| := by
        rw [pyFloatCore_renderNat_frac _ hdig, hlen, hval]
        have h10 : ((10 : ℚ) ^ k) ≠ 0 := by positivity
        congr 1
        rw [show |q| = (m : ℚ) / 10 ^ k by rw [eq_div_iff h10]; exact hmq.symm]
        rw [eq_div_iff h10, add_mul, div_mul_cancel₀ _ h10]
        have hnat : m / 10 ^ k * 10 ^ k + m % 10 ^ k = m := by
          rw [mul_comm]; exact Nat.div_add_mod m (10 ^ k)
        exact_mod_cast hnat
      exact ⟨by rw [pyFloat_append_renderNat, hcore], by rw [hcore, Option.map_some']⟩
  obtain ⟨body, hsplit, hpos, hneg⟩ := hbody
  rw [hsplit]
  by_cases hn : q.num < 0
  · rw [if_pos hn, List.singleton_append, pyFloat_cons,
      if_neg (by decide : ¬('-' : Char) = '+'), if_pos rfl, hneg]
    congr 1
    rw [abs_of_neg (show q < 0 by
      by_contra hq
      exact absurd (Rat.num_nonneg.2 (not_lt.1 hq)) (not_le.2 hn)), neg_neg]
  · rw [if_neg hn, List.nil_append, hpos]
    congr 1
    exact abs_of_nonneg (Rat.num_nonneg.1 (not_lt.1 hn))

theorem comma_not_mem_renderNat (n : ℕ) : ',' ∉ renderNat n := by
  intro h
  have := mem_renderNat_isDigit n ',' h
  exact absurd this (by decide)

theorem comma_not_mem_renderInt (z : ℤ) : ',' ∉ renderInt z := by
  rw [renderInt]
  by_cases hz : z < 0
  · rw [if_pos hz]
    intro h
    rcases List.mem_cons.1 h with h1 | h1
    · exact absurd h1 (by decide)
    · exact comma_not_mem_renderNat _ h1
  · rw [if_neg hz]; exact comma_not_mem_renderNat _

theorem comma_not_mem_padZeros {k : ℕ} {ds : List Char} (h : ',' ∉ ds) :
    ',' ∉ padZeros k ds := by
  intro hc
  rcases List.mem_append.1 hc with h1 | h1
  · exact absurd (List.eq_of_mem_replicate h1) (by decide)
  · exact h h1

theorem comma_not_mem_renderDec (q : ℚ) : ',' ∉ renderDec q := by
  rw [renderDec]
  have hsign : ',' ∉ (if q.num < 0 then ['-'] else [] : List Char) := by
    by_cases hq : q.num < 0
    · rw [if_pos hq]; decide
    · rw [if_neg hq]; simp
  by_cases hk0 : findDecExp q = 0
  · rw [if_pos hk0]
    intro hc
    rcases List.mem_append.1 hc with h1 | h1
    · exact hsign h1
    · exact comma_not_mem_renderNat _ h1
  · rw [if_neg hk0]
    intro hc
    rcases List.mem_append.1 hc with h1 | h1
    · rcases List.mem_append.1 h1 with h2 | h2
      · exact hsign h2
      · exact comma_not_mem_renderNat _ h2
    · rcases List.mem_cons.1 h1 with h2 | h2
      · exact absurd h2 (by decide)
      · exact comma_not_mem_padZeros (comma_not_mem_renderNat _) h2

theorem encode_splitOn (p : DanmakuParams)
    (h2 : ',' ∉ p.danmaku_id) (h3 : ',' ∉ p.user_hash) :
    (encode p).splitOn ',' =
      [renderDec p.time, renderInt p.mode, renderInt p.font_size,
       renderInt p.color, renderInt p.timestamp, renderInt p.pool,
       p.danmaku_id, p.user_hash] := by
  rw [encode]
  refine List.splitOn_intercalate _ ',' ?_ (by simp)
  intro l hl
  simp only [List.mem_cons, List.not_mem_nil, or_false] at hl
  rcases hl with rfl | rfl | rfl | rfl | rfl | rfl | rfl | rfl
  · exact comma_not_mem_renderDec _
  · exact comma_not_mem_renderInt _
  · exact comma_not_mem_renderInt _
  · exact comma_not_mem_renderInt _
  · exact comma_not_mem_renderInt _
  · exact comma_not_mem_renderInt _
  · exact h2
  · exact h3

theorem parse_encode (p : DanmakuParams) (h2 : ',' ∉ p.danmaku_id)
    (h3 : ',' ∉ p.user_hash) (h4 : IsFiniteDecimal p.time) :
    parse_params_string (encode p) = some p := by
  rw [parse_params_string, encode_splitOn p h2 h3, parseParts,
    if_pos (by norm_num)]
  simp only [List.getD_cons_zero, List.getD_cons_succ]
  rw [pyFloat_renderDec h4, pyInt_renderInt, pyInt_renderInt, pyInt_renderInt,
    pyInt_renderInt, pyInt_renderInt]
  simp only [Option.some_bind]
  norm_num

theorem parseParts_take8 {parts : List (List Char)} (h : 8 ≤ parts.length) :
    parseParts parts = parseParts (parts.take 8) := by
  have hlen : (parts.take 8).length = 8 := by
    rw [List.length_take]; omega
  have hget : ∀ i, i < 8 → (parts.take 8).getD i [] = parts.getD i [] := by
    intro i hi
    rw [List.getD_eq_getElem?_getD, List.getD_eq_getElem?_getD,
      List.getElem?_take_of_lt hi]
  rw [parseParts, parseParts, if_pos h,
    if_pos (show 8 ≤ (parts.take 8).length by omega)]
  rw [hget 0 (by omega), hget 1 (by omega), hget 2 (by omega), hget 3 (by omega),
    hget 4 (by omega), hget 5 (by omega), hget 6 (by omega), hget 7 (by omega)]
  rw [if_pos (show 7 < parts.length by omega),
    if_pos (show 7 < (parts.take 8).length by omega)]

theorem parseParts_congr {p1 p2 : List (List Char)} (h1 : 8 ≤ p1.length)
    (htake : p1.take 8 = p2.take 8) : parseParts p1 = parseParts p2 := by
  have hlen2 : 8 ≤ p2.length := by
    have e1 : (p1.take 8).length = 8 := by rw [List.length_take]; omega
    have e2 : (p2.take 8).length = min 8 p2.length := List.length_take 8 p2
    rw [htake, e2] at e1
    omega
  rw [parseParts_take8 h1, parseParts_take8 hlen2, htake]

theorem parseParts_isSome_iff (parts : List (List Char)) :
    (parseParts parts).isSome ↔
      8 ≤ parts.length ∧ (pyFloat (parts.getD 0 [])).isSome ∧
      (pyInt (parts.getD 1 [])).isSome ∧ (pyInt (parts.getD 2 [])).isSome ∧
      (pyInt (parts.getD 3 [])).isSome ∧ (pyInt (parts.getD 4 [])).isSome ∧
      (pyInt (parts.getD 5 [])).isSome := by
  rw [parseParts]
  by_cases h : 8 ≤ parts.length
  · rw [if_pos h]
    rcases hf0 : pyFloat (parts.getD 0 []) with _ | x0 <;>
      rcases hf1 : pyInt (parts.getD 1 []) with _ | x1 <;>
      rcases hf2 : pyInt (parts.getD 2 []) with _ | x2 <;>
      rcases hf3 : pyInt (parts.getD 3 []) with _ | x3 <;>
      rcases hf4 : pyInt (parts.getD 4 []) with _ | x4 <;>
      rcases hf5 : pyInt (parts.getD 5 []) with _ | x5 <;>
      simp [h]
  · rw [if_neg h]
    simp [h]

theorem parseParts_color {parts : List (List Char)} {r : DanmakuParams}
    (h : parseParts parts = some r) : pyInt (parts.getD 3 []) = some r.color := by
  rw [parseParts] at h
  by_cases hl : 8 ≤ parts.length
  · rw [if_pos hl] at h
    simp only [Option.bind_eq_some] at h
    obtain ⟨t, ht, m, hm, fs, hfs, c, hc, ts, hts, pl, hpl, hrec⟩ := h
    simp only [Option.some.injEq] at hrec
    rw [← hrec]
    exact hc
  · rw [if_neg hl] at h
    exact absurd h (by simp)

/-! ## Lemmas on hexadecimal color formatting -/

/-- The sixteen uppercase hexadecimal digit characters. -/
def hexDigitsList : List Char :=
  ['0', '1', '2', '3', '4', '5', '6', '7', '8', '9', 'A', 'B', 'C', 'D', 'E', 'F']

theorem hexDigitChar_mem {d : ℕ} (h : d < 16) : hexDigitChar d ∈ hexDigitsList := by
  interval_cases d <;> decide

theorem mem_toHexUpper (n : ℕ) : ∀ c ∈ toHexUpper n, c ∈ hexDigitsList := by
  rw [toHexUpper]
  by_cases h0 : n = 0
  · rw [if_pos h0]
    intro c hc
    rw [List.mem_singleton.1 hc]
    decide
  · rw [if_neg h0]
    intro c hc
    rcases List.mem_map.1 hc with ⟨d, hd, rfl⟩
    exact hexDigitChar_mem (mem_baseDigitsAux_lt (by omega) _ _ _ hd)

theorem toHexUpper_length_le {n k : ℕ} (hk : 1 ≤ k) (h : n < 16 ^ k) :
    (toHexUpper n).length ≤ k := by
  rw [toHexUpper]
  by_cases h0 : n = 0
  · rw [if_pos h0]; simpa using hk
  · rw [if_neg h0, List.length_map]
    exact baseDigitsAux_length (by omega) _ _ _ (Nat.le_succ n) h

theorem get_color_hex_in_range {c : ℤ} (h0 : 0 ≤ c) (h1 : c ≤ 0xFFFFFF) :
    ∃ ds : List Char, get_color_hex c = String.mk ('#' :: ds) ∧ ds.length = 6 ∧
      ∀ ch ∈ ds, ch ∈ hexDigitsList := by
  rw [get_color_hex, if_neg (not_lt.2 h0)]
  refine ⟨padZeros 6 (toHexUpper c.toNat), rfl, ?_, ?_⟩
  · refine padZeros_length (toHexUpper_length_le (by omega) ?_)
    have : c.toNat ≤ 0xFFFFFF := by omega
    calc c.toNat ≤ 0xFFFFFF := this
      _ < 16 ^ 6 := by norm_num
  · intro ch hch
    rcases List.mem_append.1 hch with hch1 | hch1
    · rw [List.eq_of_mem_replicate hch1]; decide
    · exact mem_toHexUpper _ ch hch1

/-! ## The similarity formula (spec refinement) -/

/-- Written from the claim: the Jaccard index over the sets of characters of
the two strings, with identical strings scoring 1.0 and either string empty
scoring 0.0. -/
def content_similarity_spec (s1 s2 : List Char) : ℚ :=
  if s1 = s2 then 1
  else if s1 = [] ∨ s2 = [] then 0
  else ((s1.toFinset ∩ s2.toFinset).card : ℚ) / ((s1.toFinset ∪ s2.toFinset).card : ℚ)

/-- Written from the claim: `max(0, 1 - |t1 - t2| / 5.0)`. -/
def time_similarity_spec (t1 t2 : ℚ) : ℚ := max 0 (1 - |t1 - t2| / 5)

/-- Written from the claim: the composite similarity
`0.8 * content_similarity + 0.2 * time_similarity`. -/
def similarity_spec (d1 d2 : Danmaku) : ℚ :=
  0.8 * content_similarity_spec d1.m d2.m + 0.2 * time_similarity_spec d1.t d2.t

theorem string_similarity_eq_spec (s1 s2 : List Char) :
    string_similarity s1 s2 = content_similarity_spec s1 s2 := by
  rw [string_similarity, content_similarity_spec]
  by_cases he : s1 = s2
  · rw [if_pos he, if_pos he]
  · rw [if_neg he, if_neg he]
    by_cases hz : s1 = [] ∨ s2 = []
    · rw [if_pos hz, if_pos hz]
    · rw [if_neg hz, if_neg hz]
      push_neg at hz
      rw [if_pos]
      intro hu
      rcases Finset.union_eq_empty.1 hu with ⟨hu1, _⟩
      exact hz.1 (by simpa using hu1)

/-! ## Lemmas on the duplicate-grouping loop -/

theorem innerScan_eq (d1 : Danmaku) (θ : ℚ) :
    ∀ (rest : List (ℕ × Danmaku)) (processed : List ℕ),
      (rest.map Prod.fst).Nodup →
      innerScan d1 θ rest processed =
        (specGroupMembers d1 θ rest processed,
         (specGroupMembers d1 θ rest processed).reverse.map Prod.fst ++ processed) := by
  intro rest
  induction rest with
  | nil => intro processed _; simp [innerScan, specGroupMembers]
  | cons jd rest ih =>
    intro processed hnd
    obtain ⟨j, d2⟩ := jd
    rw [List.map_cons, List.nodup_cons] at hnd
    simp only [specGroupMembers] at ih ⊢
    by_cases hj : j ∈ processed
    · rw [innerScan, if_pos hj, ih processed hnd.2,
        List.filter_cons_of_neg (by simp [hj])]
    · rw [innerScan, if_neg hj]
      by_cases hsim : θ ≤ calculate_danmaku_similarity d1 d2
      · rw [if_pos hsim, ih (j :: processed) hnd.2,
          List.filter_cons_of_pos (by simp [hj, hsim])]
        have hfc : rest.filter (fun jd =>
              decide (jd.1 ∉ j :: processed ∧ θ ≤ calculate_danmaku_similarity d1 jd.2)) =
            rest.filter (fun jd =>
              decide (jd.1 ∉ processed ∧ θ ≤ calculate_danmaku_similarity d1 jd.2)) := by
          refine List.filter_congr ?_
          intro x hx
          have hxj : x.1 ≠ j := by
            intro he
            have hmm : x.1 ∈ rest.map Prod.fst := List.mem_map_of_mem Prod.fst hx
            rw [he] at hmm
            exact hnd.1 hmm
          simp [List.mem_cons, hxj]
        rw [hfc]
        simp [List.reverse_cons]
      · rw [if_neg hsim, ih processed hnd.2,
          List.filter_cons_of_neg (by simp [hsim])]

theorem specOuter_congr (θ : ℚ) :
    ∀ (rest : List (ℕ × Danmaku)) (p1 p2 : List ℕ),
      (∀ x, x ∈ p1 ↔ x ∈ p2) → specOuter θ rest p1 = specOuter θ rest p2 := by
  intro rest
  induction rest with
  | nil => intro p1 p2 _; rfl
  | cons id1 rest ih =>
    intro p1 p2 h
    obtain ⟨i, d1⟩ := id1
    have hmem : specGroupMembers d1 θ rest p1 = specGroupMembers d1 θ rest p2 := by
      refine List.filter_congr ?_
      intro x _
      simp [h x.1]
    by_cases hi : i ∈ p1
    · rw [specOuter, if_pos hi, specOuter, if_pos ((h i).1 hi), ih p1 p2 h]
    · rw [specOuter, if_neg hi, specOuter, if_neg (fun hc => hi ((h i).2 hc)), hmem]
      congr 1
      refine ih _ _ ?_
      intro x
      simp only [List.mem_cons, List.mem_append]
      rw [h x]

theorem outerScan_eq_spec (θ : ℚ) :
    ∀ (rest : List (ℕ × Danmaku)) (processed : List ℕ),
      (rest.map Prod.fst).Nodup →
      outerScan θ rest processed = specOuter θ rest processed := by
  intro rest
  induction rest with
  | nil => intro processed _; rfl
  | cons id1 rest ih =>
    intro processed hnd
    obtain ⟨i, d1⟩ := id1
    rw [List.map_cons, List.nodup_cons] at hnd
    by_cases hi : i ∈ processed
    · rw [outerScan, if_pos hi, specOuter, if_pos hi, ih processed hnd.2]
    · rw [outerScan, if_neg hi, specOuter, if_neg hi,
        innerScan_eq d1 θ rest processed hnd.2]
      congr 1
      rw [ih _ hnd.2]
      refine specOuter_congr θ rest _ _ ?_
      intro x
      simp [List.mem_cons, List.mem_append, List.mem_map, List.mem_reverse]

theorem cleanup_eq_spec (l : List Danmaku) (θ : ℚ) :
    cleanup_duplicate_groups l θ = specFindDuplicates l θ := by
  rw [cleanup_duplicate_groups, specFindDuplicates,
    outerScan_eq_spec θ l.enum [] (List.nodup_enum_map_fst l)]

theorem specOuter_length (θ : ℚ) :
    ∀ (rest : List (ℕ × Danmaku)) (processed : List ℕ),
      ∀ g ∈ specOuter θ rest processed, 1 < g.length := by
  intro rest
  induction rest with
  | nil => intro processed g hg; simp [specOuter] at hg
  | cons id1 rest ih =>
    intro processed g hg
    obtain ⟨i, d1⟩ := id1
    rw [specOuter] at hg
    by_cases hi : i ∈ processed
    · rw [if_pos hi] at hg
      exact ih processed g hg
    · rw [if_neg hi] at hg
      rcases List.mem_append.1 hg with h1 | h1
      · by_cases hlen : 1 < ((i, d1) :: specGroupMembers d1 θ rest processed).length
        · rw [if_pos hlen] at h1
          rw [List.mem_singleton.1 h1]
          exact hlen
        · rw [if_neg hlen] at h1
          simp at h1
      · exact ih _ g h1

theorem specOuter_mem_sub (θ : ℚ) :
    ∀ (rest : List (ℕ × Danmaku)) (processed : List ℕ),
      ∀ g ∈ specOuter θ rest processed, ∀ x ∈ g, x ∈ rest := by
  intro rest
  induction rest with
  | nil => intro processed g hg; simp [specOuter] at hg
  | cons id1 rest ih =>
    intro processed g hg x hx
    obtain ⟨i, d1⟩ := id1
    rw [specOuter] at hg
    by_cases hi : i ∈ processed
    · rw [if_pos hi] at hg
      exact List.mem_cons_of_mem _ (ih processed g hg x hx)
    · rw [if_neg hi] at hg
      rcases List.mem_append.1 hg with h1 | h1
      · by_cases hlen : 1 < ((i, d1) :: specGroupMembers d1 θ rest processed).length
        · rw [if_pos hlen, List.mem_singleton] at h1
          subst h1
          rcases List.mem_cons.1 hx with rfl | h2
          · exact List.mem_cons_self _ _
          · exact List.mem_cons_of_mem _
              (List.mem_of_mem_filter h2)
        · rw [if_neg hlen] at h1
          simp at h1
      · exact List.mem_cons_of_mem _ (ih _ g h1 x hx)

theorem specOuter_not_processed (θ : ℚ) :
    ∀ (rest : List (ℕ × Danmaku)) (processed : List ℕ),
      ∀ g ∈ specOuter θ rest processed, ∀ x ∈ g, x.1 ∉ processed := by
  intro rest
  induction rest with
  | nil => intro processed g hg; simp [specOuter] at hg
  | cons id1 rest ih =>
    intro processed g hg x hx
    obtain ⟨i, d1⟩ := id1
    rw [specOuter] at hg
    by_cases hi : i ∈ processed
    · rw [if_pos hi] at hg
      exact ih processed g hg x hx
    · rw [if_neg hi] at hg
      rcases List.mem_append.1 hg with h1 | h1
      · by_cases hlen : 1 < ((i, d1) :: specGroupMembers d1 θ rest processed).length
        · rw [if_pos hlen, List.mem_singleton] at h1
          subst h1
          rcases List.mem_cons.1 hx with rfl | h2
          · exact hi
          · have := List.mem_filter.1 h2
            simpa using (of_decide_eq_true this.2).1
        · rw [if_neg hlen] at h1
          simp at h1
      · intro hxp
        exact ih _ g h1 x hx (by simp [hxp])

theorem specOuter_pairwise (θ : ℚ) :
    ∀ (rest : List (ℕ × Danmaku)) (processed : List ℕ),
      (specOuter θ rest processed).Pairwise
        (fun g1 g2 => ∀ x ∈ g1, ∀ y ∈ g2, x.1 ≠ y.1) := by
  intro rest
  induction rest with
  | nil => intro processed; simp [specOuter]
  | cons id1 rest ih =>
    intro processed
    obtain ⟨i, d1⟩ := id1
    rw [specOuter]
    by_cases hi : i ∈ processed
    · rw [if_pos hi]
      exact ih processed
    · rw [if_neg hi]
      rw [List.pairwise_append]
      refine ⟨?_, ih _, ?_⟩
      · by_cases hlen : 1 < ((i, d1) :: specGroupMembers d1 θ rest processed).length
        · rw [if_pos hlen]
          simp
        · rw [if_neg hlen]
          simp
      · intro g1 hg1 g2 hg2 x hx y hy
        have hyp : y.1 ∉ i :: (specGroupMembers d1 θ rest processed).map Prod.fst
            ++ processed := specOuter_not_processed θ rest _ g2 hg2 y hy
        by_cases hlen : 1 < ((i, d1) :: specGroupMembers d1 θ rest processed).length
        · rw [if_pos hlen, List.mem_singleton] at hg1
          subst hg1
          rcases List.mem_cons.1 hx with rfl | h2
          · intro he
            exact hyp (by simp [← he])
          · intro he
            refine hyp ?_
            rw [List.cons_append]
            refine List.mem_cons_of_mem _ (List.mem_append.2 (Or.inl ?_))
            rw [← he]
            exact List.mem_map_of_mem Prod.fst h2
        · rw [if_neg hlen] at hg1
          simp at hg1

theorem specOuter_group_nodup (θ : ℚ) :
    ∀ (rest : List (ℕ × Danmaku)) (processed : List ℕ),
      (rest.map Prod.fst).Nodup →
      ∀ g ∈ specOuter θ rest processed, (g.map Prod.fst).Nodup := by
  intro rest
  induction rest with
  | nil => intro processed _ g hg; simp [specOuter] at hg
  | cons id1 rest ih =>
    intro processed hnd g hg
    obtain ⟨i, d1⟩ := id1
    rw [List.map_cons, List.nodup_cons] at hnd
    rw [specOuter] at hg
    by_cases hi : i ∈ processed
    · rw [if_pos hi] at hg
      exact ih processed hnd.2 g hg
    · rw [if_neg hi] at hg
      rcases List.mem_append.1 hg with h1 | h1
      · by_cases hlen : 1 < ((i, d1) :: specGroupMembers d1 θ rest processed).length
        · rw [if_pos hlen, List.mem_singleton] at h1
          subst h1
          rw [List.map_cons, List.nodup_cons]
          have hsub : (specGroupMembers d1 θ rest processed).map Prod.fst |>.Sublist
              (rest.map Prod.fst) :=
            List.Sublist.map Prod.fst (List.filter_sublist rest)
          constructor
          · intro hmem
            exact hnd.1 (hsub.subset hmem)
          · exact hsub.nodup hnd.2
        · rw [if_neg hlen] at h1
          simp at h1
      · exact ih _ hnd.2 g h1

theorem enum_id_ne {l : List Danmaku} (hnd : (l.map Danmaku.id).Nodup)
    {x y : ℕ × Danmaku} (hx : x ∈ l.enum) (hy : y ∈ l.enum) (hne : x.1 ≠ y.1) :
    x.2.id ≠ y.2.id := by
  obtain ⟨i, a⟩ := x
  obtain ⟨j, b⟩ := y
  obtain ⟨hi, ha⟩ := List.mem_enum hx
  obtain ⟨hj, hb⟩ := List.mem_enum hy
  rw [ha, hb]
  intro he
  refine hne ?_
  have hil : i < (l.map Danmaku.id).length := by simpa using hi
  have hjl : j < (l.map Danmaku.id).length := by simpa using hj
  have h1 : (l.map Danmaku.id).get ⟨i, hil⟩ = (l.map Danmaku.id).get ⟨j, hjl⟩ := by
    simpa [List.get_eq_getElem, List.getElem_map] using he
  simpa using (hnd.get_inj_iff).1 h1

/-! ## Claim theorems -/

/-- C1: `parse_params_string` returns a complete decoded record if and only
if the string splits on commas into at least 8 fields and the six numeric
fields (`time` as a float, `mode`, `font_size`, `color`, `send_timestamp`,
`pool` as integers) parse; any shortfall or numeric parse failure yields the
empty result (the `Option` embedding of the all-or-nothing dict), and the
result depends only on the first 8 fields, so trailing fields never cause
failure. -/
theorem parse_params_string_complete_iff :
    (∀ s : List Char,
      (parse_params_string s).isSome ↔
        (8 ≤ (s.splitOn ',').length ∧
         (pyFloat ((s.splitOn ',').getD 0 [])).isSome ∧
         (pyInt ((s.splitOn ',').getD 1 [])).isSome ∧
         (pyInt ((s.splitOn ',').getD 2 [])).isSome ∧
         (pyInt ((s.splitOn ',').getD 3 [])).isSome ∧
         (pyInt ((s.splitOn ',').getD 4 [])).isSome ∧
         (pyInt ((s.splitOn ',').getD 5 [])).isSome)) ∧
    (∀ s1 s2 : List Char, 8 ≤ (s1.splitOn ',').length →
      (s1.splitOn ',').take 8 = (s2.splitOn ',').take 8 →
      parse_params_string s1 = parse_params_string s2) :=
  ⟨fun s => parseParts_isSome_iff (s.splitOn ','),
   fun _ _ h ht => parseParts_congr h ht⟩

/-- Witness for C1: a 10-field packed string decodes exactly as its
8-field truncation does — trailing fields are ignored. -/
theorem parse_params_string_complete_iff_witness :
    parse_params_string "1.0,2,12,255,0,0,x,y,extra,z".toList =
      parse_params_string "1.0,2,12,255,0,0,x,y".toList :=
  parse_params_string_complete_iff.2 _ _ (by decide) (by decide)

/-- C2: when the engine-native (database-view) statistics path raises any
error, `get_comprehensive_statistics` returns the in-process fallback
result — a total, non-error value tagged `"python_parsing"` (the fallback
method tag) carrying the sample limit actually used — identical to what the
pure fallback path (`use_view = False`) produces; the native failure is
consumed, never re-raised. -/
theorem get_comprehensive_statistics_fallback (e : String)
    (rows : List (List Char)) (limit : ℕ) :
    get_comprehensive_statistics true (Except.error e) rows limit =
        python_fallback_statistics rows limit ∧
      (get_comprehensive_statistics true (Except.error e) rows limit).method =
        "python_parsing" ∧
      (get_comprehensive_statistics true (Except.error e) rows limit).sampleLimit =
        some limit ∧
      get_comprehensive_statistics true (Except.error e) rows limit =
        get_comprehensive_statistics false (Except.error e) rows limit :=
  ⟨rfl, rfl, rfl, rfl⟩

/-- C3 counterexample: a packed string with exactly 7 comma-separated
fields and all six numeric fields valid is rejected by
`parse_params_string` (the claim says it should succeed with `user_hash`
defaulted to the empty string; the `parts[7] if len(parts) > 7 else ''`
default is unreachable behind the `len(parts) >= 8` guard). -/
theorem parse_params_string_seven_fields_counterexample :
    (("1.0,1,25,16777215,1609459200,0,abc".toList.splitOn ',').length = 7) ∧
      (pyFloat (("1.0,1,25,16777215,1609459200,0,abc".toList.splitOn ',').getD 0 [])).isSome ∧
      (pyInt (("1.0,1,25,16777215,1609459200,0,abc".toList.splitOn ',').getD 1 [])).isSome ∧
      (pyInt (("1.0,1,25,16777215,1609459200,0,abc".toList.splitOn ',').getD 2 [])).isSome ∧
      (pyInt (("1.0,1,25,16777215,1609459200,0,abc".toList.splitOn ',').getD 3 [])).isSome ∧
      (pyInt (("1.0,1,25,16777215,1609459200,0,abc".toList.splitOn ',').getD 4 [])).isSome ∧
      (pyInt (("1.0,1,25,16777215,1609459200,0,abc".toList.splitOn ',').getD 5 [])).isSome ∧
      parse_params_string "1.0,1,25,16777215,1609459200,0,abc".toList = none := by
  decide

/-- C3 amended: a packed string with exactly 7 comma-separated fields is a
decode failure regardless of the validity of the numeric fields — all 8
fields, including the `user_hash` slot, are mandatory; the empty-string
default for `user_hash` is dead code. -/
theorem parse_params_string_seven_fields_fails (s : List Char)
    (h : (s.splitOn ',').length = 7) : parse_params_string s = none := by
  rw [parse_params_string, parseParts, if_neg (by omega)]

/-- Witness for the amended C3. -/
theorem parse_params_string_seven_fields_fails_witness :
    (("a,b,c,d,e,f,g".toList.splitOn ',').length = 7) ∧
      parse_params_string "a,b,c,d,e,f,g".toList = none :=
  ⟨by decide, parse_params_string_seven_fields_fails _ (by decide)⟩

/-- C4 counterexample: `parse_params_string` accepts a color of
`16777216 = 0xFFFFFF + 1` and a negative color `-1` without failure or
truncation (the claim says such values are decode failures). -/
theorem parse_params_string_color_counterexample :
    (parse_params_string "1.0,1,25,16777216,1609459200,0,abc,h".toList).map
        (fun r => r.color) = some 16777216 ∧
      (parse_params_string "1.0,1,25,-1,1609459200,0,abc,h".toList).map
        (fun r => r.color) = some (-1) ∧
      (0xFFFFFF : ℤ) < 16777216 := by
  decide

/-- C4 amended: the codec applies no range check to the color field — any
string whose 4th field parses as an integer is accepted, and the decoded
`color` is exactly that integer (passed through verbatim, no truncation),
including negative values and values above `0xFFFFFF`. -/
theorem parse_params_string_color_verbatim {s : List Char} {r : DanmakuParams}
    (h : parse_params_string s = some r) :
    pyInt ((s.splitOn ',').getD 3 []) = some r.color :=
  parseParts_color h

/-- Witness for the amended C4: the out-of-range color 16777216 is decoded
verbatim. -/
theorem parse_params_string_color_verbatim_witness :
    pyInt (("1.0,1,25,16777216,0,0,a,b".toList.splitOn ',').getD 3 []) =
      some (16777216 : ℤ) := by
  obtain ⟨r, hr⟩ : ∃ r, parse_params_string "1.0,1,25,16777216,0,0,a,b".toList = some r :=
    Option.isSome_iff_exists.1 (by decide)
  have hc := parse_params_string_color_verbatim hr
  have h2 : (parse_params_string "1.0,1,25,16777216,0,0,a,b".toList).map
      (fun r => r.color) = some 16777216 := by decide
  rw [hr, Option.map_some'] at h2
  rw [hc]
  exact h2

/-- C5 counterexample: `get_color_hex` on the uint32 value `16777216`
(which exceeds `0xFFFFFF`) produces `"#1000000"` — seven hex digits, not
six (Python's `06X` pads to a *minimum* width of 6 and never truncates). -/
theorem get_color_hex_counterexample :
    get_color_hex 16777216 = "#1000000" ∧ (16777216 : ℤ) < 2 ^ 32 := by
  decide

/-- C5 amended: `get_color_hex` is total on integers; for every color in
`[0, 0xFFFFFF]` it returns `'#'` followed by exactly 6 uppercase
zero-padded hexadecimal digits, and `get_color_hex 16777215 = "#FFFFFF"`,
`get_color_hex 255 = "#0000FF"`.  (Inputs above `0xFFFFFF` produce more
than 6 digits rather than being truncated.) -/
theorem get_color_hex_amended :
    (∀ c : ℤ, 0 ≤ c → c ≤ 0xFFFFFF →
      ∃ ds : List Char, get_color_hex c = String.mk ('#' :: ds) ∧ ds.length = 6 ∧
        ∀ ch ∈ ds, ch ∈ hexDigitsList) ∧
    get_color_hex 16777215 = "#FFFFFF" ∧ get_color_hex 255 = "#0000FF" :=
  ⟨fun _ h0 h1 => get_color_hex_in_range h0 h1, by decide, by decide⟩

/-- Witness for the amended C5 at color 255. -/
theorem get_color_hex_amended_witness :
    ∃ ds : List Char, get_color_hex 255 = String.mk ('#' :: ds) ∧ ds.length = 6 ∧
      ∀ ch ∈ ds, ch ∈ hexDigitsList :=
  get_color_hex_amended.1 255 (by decide) (by decide)

/-- C6 counterexample: the round-trip `decode ∘ encode` fails on a valid
record whose opaque `external_id` token contains a comma — the encoded
string gains a 9th field, so decoding splits the token and shifts
`user_hash`.  (`encode` is spec-modelled; see its definition.) -/
theorem decode_encode_counterexample :
    ValidParams ⟨1, 1, 25, 255, 0, 0, "a,b".toList, "h".toList⟩ ∧
      parse_params_string (encode ⟨1, 1, 25, 255, 0, 0, "a,b".toList, "h".toList⟩) ≠
        some ⟨1, 1, 25, 255, 0, 0, "a,b".toList, "h".toList⟩ := by
  constructor
  · exact ⟨by decide, by decide⟩
  · with_unfolding_all decide

/-- C6 amended: for every valid record whose `external_id` and `user_hash`
contain no comma and whose `time` lies in the `float64` value range (every
IEEE-754 double is a finite decimal fraction), `decode (encode p) = p`. -/
theorem decode_encode_roundtrip (p : DanmakuParams) (_hv : ValidParams p)
    (h2 : ',' ∉ p.danmaku_id) (h3 : ',' ∉ p.user_hash)
    (h4 : IsFiniteDecimal p.time) :
    parse_params_string (encode p) = some p :=
  parse_encode p h2 h3 h4

/-- Witness for the amended C6: a record with `time = 23.5` round-trips. -/
theorem decode_encode_roundtrip_witness :
    parse_params_string (encode ⟨47/2, 1, 25, 16777215, 1609459200, 0,
        "abc".toList, "uh".toList⟩) =
      some ⟨47/2, 1, 25, 16777215, 1609459200, 0, "abc".toList, "uh".toList⟩ :=
  decode_encode_roundtrip _ ⟨by decide, by decide⟩ (by decide) (by decide)
    ⟨1, by norm_num, by with_unfolding_all decide⟩

/-- C7: for every pair of comments, the composite similarity computed by
`_calculate_danmaku_similarity` equals
`0.8 * content_similarity + 0.2 * time_similarity` where
`content_similarity` is the Jaccard index over the character sets (with the
claim's conventions: identical strings 1.0, an empty side 0.0) and
`time_similarity = max(0, 1 - |t1 - t2| / 5.0)` — the right-hand side
being the independently written spec definitions. -/
theorem calculate_danmaku_similarity_eq_spec (d1 d2 : Danmaku) :
    calculate_danmaku_similarity d1 d2 = similarity_spec d1 d2 := by
  rw [calculate_danmaku_similarity, similarity_spec, string_similarity_eq_spec,
    time_similarity_spec]
  ring

/-- C8: the duplicate grouping of `cleanup_duplicate_danmaku` is exactly
the claim's greedy single-linkage clustering in input order
(`specFindDuplicates`, written from the claim: each unprocessed comment
anchors a group, membership is decided only against the anchor, grouped
members become processed, the anchor is element 0), and every returned
group has at least two members (singletons are dropped). -/
theorem cleanup_duplicate_groups_greedy (l : List Danmaku) (θ : ℚ) :
    cleanup_duplicate_groups l θ = specFindDuplicates l θ ∧
      ∀ g ∈ cleanup_duplicate_groups l θ, 1 < g.length := by
  refine ⟨cleanup_eq_spec l θ, ?_⟩
  intro g hg
  rw [cleanup_eq_spec, specFindDuplicates] at hg
  rcases List.mem_map.1 hg with ⟨g0, hg0, rfl⟩
  simpa using specOuter_length θ l.enum [] g0 hg0

/-- C9: across all duplicate groups of one invocation no comment id appears
twice (pairwise id-disjoint groups), every group member comes from the
input list, and no id repeats within a group — the groups partition a
subset of the input (assuming the input rows carry distinct primary-key
ids, as database rows do). -/
theorem cleanup_duplicate_groups_disjoint (l : List Danmaku) (θ : ℚ)
    (hnd : (l.map Danmaku.id).Nodup) :
    (cleanup_duplicate_groups l θ).Pairwise
        (fun g1 g2 => ∀ a ∈ g1, ∀ b ∈ g2, a.id ≠ b.id) ∧
      ∀ g ∈ cleanup_duplicate_groups l θ,
        (∀ a ∈ g, a ∈ l) ∧ (g.map Danmaku.id).Nodup := by
  rw [cleanup_eq_spec, specFindDuplicates]
  constructor
  · rw [List.pairwise_map]
    refine List.Pairwise.imp_of_mem ?_ (specOuter_pairwise θ l.enum [])
    intro g1 g2 hg1 hg2 hR a ha b hb
    rcases List.mem_map.1 ha with ⟨x, hx, rfl⟩
    rcases List.mem_map.1 hb with ⟨y, hy, rfl⟩
    have hxe : x ∈ l.enum := specOuter_mem_sub θ l.enum [] g1 hg1 x hx
    have hye : y ∈ l.enum := specOuter_mem_sub θ l.enum [] g2 hg2 y hy
    exact enum_id_ne hnd hxe hye (hR x hx y hy)
  · intro g hg
    rcases List.mem_map.1 hg with ⟨g0, hg0, rfl⟩
    constructor
    · intro a ha
      rcases List.mem_map.1 ha with ⟨x, hx, rfl⟩
      have hxe : x ∈ l.enum := specOuter_mem_sub θ l.enum [] g0 hg0 x hx
      obtain ⟨hi, ha2⟩ := List.mem_enum hxe
      rw [ha2]
      exact List.getElem_mem hi
    · rw [List.map_map]
      have hnodup0 : (g0.map Prod.fst).Nodup :=
        specOuter_group_nodup θ l.enum [] (List.nodup_enum_map_fst l) g0 hg0
      have hpw : g0.Pairwise (fun x y => x.1 ≠ y.1) := List.pairwise_map.mp hnodup0
      have hpw2 : g0.Pairwise (fun x y => x.2.id ≠ y.2.id) := by
        refine List.Pairwise.imp_of_mem ?_ hpw
        intro x y hx hy hne
        exact enum_id_ne hnd (specOuter_mem_sub θ l.enum [] g0 hg0 x hx)
          (specOuter_mem_sub θ l.enum [] g0 hg0 y hy) hne
      exact List.pairwise_map.mpr hpw2

/-- Witness for C9 on a concrete three-comment episode with distinct ids. -/
theorem cleanup_duplicate_groups_disjoint_witness :
    (cleanup_duplicate_groups [⟨1, "hi".toList, 0⟩, ⟨2, "hi".toList, 1⟩,
          ⟨3, "hi".toList, 100⟩] (9/10)).Pairwise
        (fun g1 g2 => ∀ a ∈ g1, ∀ b ∈ g2, a.id ≠ b.id) ∧
      ∀ g ∈ cleanup_duplicate_groups [⟨1, "hi".toList, 0⟩, ⟨2, "hi".toList, 1⟩,
          ⟨3, "hi".toList, 100⟩] (9/10),
        (∀ a ∈ g, a ∈ [⟨1, "hi".toList, 0⟩, ⟨2, "hi".toList, 1⟩,
          ⟨3, "hi".toList, 100⟩]) ∧ (g.map Danmaku.id).Nodup :=
  cleanup_duplicate_groups_disjoint _ _ (by decide)

/-- The three-comment table exhibiting the C10 ordering bug: comment 1 sits
alone at `t = 100` (density 0) while comments 2 and 3 sit 1 second apart
(density 1 each). -/
def popularBugTable : List CommentRow := [⟨1, 1, 100⟩, ⟨2, 1, 0⟩, ⟨3, 1, 1⟩]

/-- C10 (code bug): the ranking query orders the episode's comments by
density descending then time ascending — `[2, 3, 1]` here — but
`get_popular_danmaku` re-fetches the selected ids with a second query that
carries no `ORDER BY`, so the returned list comes back in storage order
`[1, 2, 3]`, not in the ranking order the claim (and the function's own
docstring) promises. -/
theorem get_popular_danmaku_order_bug :
    ((popular_ranking popularBugTable 1).take 3).map (fun c => c.id) = [2, 3, 1] ∧
      (get_popular_danmaku popularBugTable 1 3).map (fun c => c.id) = [1, 2, 3] ∧
      nearby_count popularBugTable ⟨2, 1, 0⟩ = 1 ∧
      nearby_count popularBugTable ⟨1, 1, 100⟩ = 0 := by
  with_unfolding_all decide
